import Mathlib

/-!
Shallow embedding of the Qualifab worksheet application (src/app.py).

Strings are modeled as `List Char`.  A spreadsheet cell is a `Value`:
either absent (`vnull`, modeling Python `None` / pandas `NaN`), a string
(`vstr`), or a natural number (`vnat`, modeling a numeric cell; Python
`str()` renders it in decimal).  The Unicode machinery used by
`normalize_text` (`str.lower`, NFKD decomposition, combining-mark
classification) is modeled over the Latin repertoire the application
works with: ASCII plus precomposed accented Latin letters and the
combining diacritical marks block.
-/

set_option maxHeartbeats 1000000

namespace Qualifab

/-- Whitespace characters: the ASCII characters stripped by Python
`str.strip` and matched by the regex class `\s`. -/
def isSpace (c : Char) : Bool :=
  c.toNat = 32 || c.toNat = 9 || c.toNat = 10 || c.toNat = 13 || c.toNat = 11 || c.toNat = 12

/-- ASCII decimal digits, the regex class `\d` as used on this data. -/
def isDigit (c : Char) : Bool :=
  48 ≤ c.toNat && c.toNat ≤ 57

/-- The regex class `[A-Za-z]`. -/
def isAsciiAlpha (c : Char) : Bool :=
  (65 ≤ c.toNat && c.toNat ≤ 90) || (97 ≤ c.toNat && c.toNat ≤ 122)

/-- Python `str.strip`: drop whitespace from both ends. -/
def pyStrip (s : List Char) : List Char :=
  ((s.dropWhile isSpace).reverse.dropWhile isSpace).reverse

/-- Lowercase table for Python `str.lower` on the modeled repertoire:
ASCII letters and precomposed accented Latin capitals. -/
def lowerPairs : List (Char × Char) :=
  [('A', 'a'), ('B', 'b'), ('C', 'c'), ('D', 'd'), ('E', 'e'), ('F', 'f'), ('G', 'g'),
   ('H', 'h'), ('I', 'i'), ('J', 'j'), ('K', 'k'), ('L', 'l'), ('M', 'm'), ('N', 'n'),
   ('O', 'o'), ('P', 'p'), ('Q', 'q'), ('R', 'r'), ('S', 's'), ('T', 't'), ('U', 'u'),
   ('V', 'v'), ('W', 'w'), ('X', 'x'), ('Y', 'y'), ('Z', 'z'),
   ('À', 'à'), ('Â', 'â'), ('Ä', 'ä'), ('Ç', 'ç'), ('É', 'é'), ('È', 'è'), ('Ê', 'ê'),
   ('Ë', 'ë'), ('Î', 'î'), ('Ï', 'ï'), ('Ô', 'ô'), ('Ö', 'ö'), ('Ù', 'ù'), ('Û', 'û'),
   ('Ü', 'ü')]

/-- Python `str.lower` on the modeled repertoire; every character outside
the table is unchanged. -/
def lowerChar (c : Char) : Char :=
  match lowerPairs.find? (fun p => p.1 == c) with
  | Option.some p => p.2
  | Option.none => c

/-- Python `str.title` on a single ASCII letter (used on the first letter of
the month abbreviation). -/
def upperChar : Char → Char
  | 'a' => 'A' | 'b' => 'B' | 'c' => 'C' | 'd' => 'D' | 'e' => 'E' | 'f' => 'F' | 'g' => 'G'
  | 'h' => 'H' | 'i' => 'I' | 'j' => 'J' | 'k' => 'K' | 'l' => 'L' | 'm' => 'M' | 'n' => 'N'
  | 'o' => 'O' | 'p' => 'P' | 'q' => 'Q' | 'r' => 'R' | 's' => 'S' | 't' => 'T' | 'u' => 'U'
  | 'v' => 'V' | 'w' => 'W' | 'x' => 'X' | 'y' => 'Y' | 'z' => 'Z'
  | c => c

/-- The characters `unicodedata.combining` reports as combining marks, in the
modeled repertoire: the Combining Diacritical Marks block U+0300..U+036F. -/
def combining (c : Char) : Bool :=
  768 ≤ c.toNat && c.toNat ≤ 879

/-- NFKD decomposition table on the modeled repertoire: each precomposed
accented lowercase Latin letter decomposes into its base letter followed by
a combining mark. -/
def decompPairs : List (Char × List Char) :=
  [('à', ['a', '̀']), ('â', ['a', '̂']), ('ä', ['a', '̈']),
   ('ç', ['c', '̧']), ('é', ['e', '́']), ('è', ['e', '̀']),
   ('ê', ['e', '̂']), ('ë', ['e', '̈']), ('î', ['i', '̂']),
   ('ï', ['i', '̈']), ('ô', ['o', '̂']), ('ö', ['o', '̈']),
   ('ù', ['u', '̀']), ('û', ['u', '̂']), ('ü', ['u', '̈'])]

/-- Unicode NFKD decomposition of one character, on the modeled repertoire;
every character outside the table is unchanged. -/
def decompChar (c : Char) : List Char :=
  match decompPairs.find? (fun p => p.1 == c) with
  | Option.some p => p.2
  | Option.none => [c]

/-- Decimal digit character, as produced by Python `str` of an integer. -/
def digitChar : Nat → Char
  | 0 => '0' | 1 => '1' | 2 => '2' | 3 => '3' | 4 => '4'
  | 5 => '5' | 6 => '6' | 7 => '7' | 8 => '8' | 9 => '9'
  | _ => '*'

/-- Fuel-driven decimal rendering helper: emits the decimal digits of `n`,
most significant first, provided `fuel` bounds the digit count. -/
def natToStrAux (fuel n : Nat) : List Char :=
  match fuel with
  | 0 => []
  | f + 1 => if n = 0 then [] else natToStrAux f (n / 10) ++ [digitChar (n % 10)]

/-- Python `str` of a natural number: its decimal representation. -/
def natToStr (n : Nat) : List Char :=
  if n = 0 then ['0'] else natToStrAux n n

/-- One spreadsheet cell: absent (None / NaN), a string, or a number. -/
inductive Value where
  | vnull : Value
  | vstr : List Char → Value
  | vnat : Nat → Value
deriving DecidableEq

/-- Python `str(value)` for a present (non-null) cell. -/
def pyStr : Value → List Char
  | .vnull => []
  | .vstr s => s
  | .vnat n => natToStr n

/-- Source `has_value`: `None`/NaN have no value; otherwise the cell has a
value exactly when its text does not strip to the empty string. -/
def has_value (v : Value) : Bool :=
  match v with
  | .vnull => false
  | v => pyStrip (pyStr v) != []

/-- Source `normalize_text`: empty for `None`/NaN, otherwise strip, lower,
NFKD-decompose and remove the combining marks. -/
def normalize_text (v : Value) : List Char :=
  match v with
  | .vnull => []
  | v => (((pyStrip (pyStr v)).map lowerChar).flatMap decompChar).filter (fun c => !combining c)

/-- One record of the raw input table, restricted to the fields the core
logic reads; the passthrough identifier columns are opaque to every modeled
operation and are omitted. -/
structure RawRow where
  job : Value
  operationCode : Value
  customFieldName : Value
  customFieldValue : Value
  operationDescription1 : Value
deriving DecidableEq

/-- The fixed set of field names excluded for assembly operations. -/
def target_fields : List (List Char) :=
  ["diametre", "materiel", "posoudurecorrige", "sch", "type"].map String.toList

/-- The `mask_ass` predicate of `clean_df`: operation code normalizes to
"ass" and the field name normalizes into `target_fields`. -/
def is_ass_target (r : RawRow) : Bool :=
  (normalize_text r.operationCode == "ass".toList)
    && (target_fields.contains (normalize_text r.customFieldName))

/-- One row of the working table: the raw fields plus the pandas index label
`idx` and the `_orig_index` bookkeeping column.  At ingestion both carry the
row's position in the raw table; a row created later by an out-of-range edit
has a fresh label and a null `_orig_index`. -/
structure DRow where
  idx : Nat
  job : Value
  operationCode : Value
  customFieldName : Value
  customFieldValue : Value
  operationDescription1 : Value
  origIndex : Value
deriving DecidableEq

/-- Ingestion of one raw row at position `i`: copy the fields and record the
original position. -/
def toDRow (i : Nat) (r : RawRow) : DRow :=
  ⟨i, r.job, r.operationCode, r.customFieldName, r.customFieldValue,
   r.operationDescription1, .vnat i⟩

/-- The row filter of `clean_df`: keep a row exactly when it is neither
already filled nor an assembly-target row. -/
def keepRow (r : RawRow) : Bool :=
  !(has_value r.customFieldValue || is_ass_target r)

/-- Source `clean_df`: record each row's original position, then keep the
rows passing `keepRow`. -/
def clean_df (raw : List RawRow) : List DRow :=
  (raw.enum.filter (fun p => keepRow p.2)).map (fun p => toDRow p.1 p.2)

/-- The value written by one pending edit: the clear marker (Python `None`)
writes the empty string, any other value is written verbatim. -/
def updValue : Option (List Char) → Value
  | Option.none => .vstr []
  | Option.some s => .vstr s

/-- Replace a row's `CustomFieldValue`. -/
def setCfv (r : DRow) (v : Value) : DRow :=
  { r with customFieldValue := v }

/-- One `df_updated.at[idx, "CustomFieldValue"] = value` step.  When the
label is present the cell of every row carrying it is replaced; when it is
absent pandas enlarges the frame, appending a fresh row holding only the
label and the written value (NaN everywhere else, including `_orig_index`). -/
def setValueAt (t : List DRow) (i : Nat) (v : Value) : List DRow :=
  if t.any (fun r => r.idx == i) then
    t.map (fun r => if r.idx == i then setCfv r v else r)
  else
    t ++ [⟨i, .vnull, .vnull, .vnull, v, .vnull, .vnull⟩]

/-- Source `apply_updates`: fold the pending edits over a copy of the
working table; an empty edit map returns the table unchanged. -/
def apply_updates (t : List DRow) (updates : List (Nat × Option (List Char))) : List DRow :=
  if updates = [] then t
  else updates.foldl (fun acc p => setValueAt acc p.1 (updValue p.2)) t

/-- One row of an exported table: the working row with the `_orig_index`
bookkeeping column dropped (the export also restores the original column
order, which the row model abstracts away). -/
structure ExportRow where
  job : Value
  operationCode : Value
  customFieldName : Value
  customFieldValue : Value
  operationDescription1 : Value
deriving DecidableEq

/-- Drop the bookkeeping fields of a working row for export. -/
def exportRow (r : DRow) : ExportRow :=
  ⟨r.job, r.operationCode, r.customFieldName, r.customFieldValue, r.operationDescription1⟩

/-- Source `export_bytes`: the full export writes every working row (the
xlsx serialization itself is outside the model). -/
def export_bytes (t : List DRow) : List ExportRow :=
  t.map exportRow

/-- Source `export_genius_bytes`: the filled-only export writes the working
rows whose `CustomFieldValue` currently has a value. -/
def export_genius_bytes (t : List DRow) : List ExportRow :=
  (t.filter (fun r => has_value r.customFieldValue)).map exportRow

/-- Ordering key produced by `natural_sort_key_joint`: Python tuples
`(0, letters, number)` and `(1, orig_index)`. -/
inductive SortKey where
  | alpha : List Char → Nat → SortKey
  | fallback : Nat → SortKey
deriving DecidableEq

/-- Python `int` of a string of decimal digits. -/
def valOfDigits (cs : List Char) : Nat :=
  cs.foldl (fun a c => a * 10 + (c.toNat - 48)) 0

/-- The search performed by `re.match(r"^([A-Za-z]+).*?(\d+)", text)` after
the letter group: the lazy `.*?` walks forward to the first digit, and fails
if a newline (which `.` cannot match) comes first; the digit group then
takes the maximal digit run. -/
def firstDigitRun : List Char → Option (List Char)
  | [] => Option.none
  | c :: rest =>
    if isDigit c then Option.some ((c :: rest).takeWhile isDigit)
    else if c = '\n' then Option.none
    else firstDigitRun rest

/-- The regex work of `natural_sort_key_joint` on the stripped text.  It is
matched first against the anchored full pattern `letters, optional spaces,
digits, end`, then against `letters` at the start of the string followed
(across anything but a newline) by a digit run; both regexes require the
letter run to start the string since `re.match` anchors at the beginning. -/
def natKeyText (text : List Char) (origIndex : Nat) : SortKey :=
  let ls := text.takeWhile isAsciiAlpha
  if ls = [] then .fallback origIndex
  else
    let afterL := text.drop ls.length
    let sp := afterL.takeWhile isSpace
    let afterSp := afterL.drop sp.length
    let ds := afterSp.takeWhile isDigit
    if ds ≠ [] ∧ afterSp.drop ds.length = [] then
      .alpha (ls.map lowerChar) (valOfDigits ds)
    else
      match firstDigitRun afterL with
      | Option.some run => .alpha (ls.map lowerChar) (valOfDigits run)
      | Option.none => .fallback origIndex

/-- Source `natural_sort_key_joint`: null labels fall to group 1
`(1, orig_index)`, any other label is rendered, stripped and matched. -/
def natural_sort_key_joint (v : Value) (origIndex : Nat) : SortKey :=
  match v with
  | .vnull => .fallback origIndex
  | v => natKeyText (pyStrip (pyStr v)) origIndex

/-- Python `datetime.date` value (already validated). -/
structure PyDate where
  year : Nat
  month : Nat
  day : Nat
deriving DecidableEq

/-- Python `datetime.time` value restricted to the fields the code sets. -/
structure PyTime where
  hour : Nat
  minute : Nat
deriving DecidableEq

/-- Gregorian leap year rule used by Python `datetime.date`. -/
def isLeap (y : Nat) : Bool :=
  y % 4 == 0 && (y % 100 != 0 || y % 400 == 0)

/-- Length of a month, as enforced by the `datetime.date` constructor. -/
def daysInMonth (y m : Nat) : Nat :=
  if m = 2 then (if isLeap y then 29 else 28)
  else if m = 4 ∨ m = 6 ∨ m = 9 ∨ m = 11 then 30
  else 31

/-- The `datetime.date` constructor: validates its arguments, raising
`ValueError` (modeled as `Option.none`) when they are out of range. -/
def mkDate (y m d : Nat) : Option PyDate :=
  if 1 ≤ y ∧ y ≤ 9999 ∧ 1 ≤ m ∧ m ≤ 12 ∧ 1 ≤ d ∧ d ≤ daysInMonth y m then
    Option.some ⟨y, m, d⟩
  else Option.none

/-- The `datetime.time` constructor: validates its arguments, raising
`ValueError` (modeled as `Option.none`) when they are out of range. -/
def mkTime (h mi : Nat) : Option PyTime :=
  if h ≤ 23 ∧ mi ≤ 59 then Option.some ⟨h, mi⟩ else Option.none

/-- The fixed English month abbreviations produced by `strftime("%b")` in
the C locale and keyed in the decoder's month table. -/
def monthAbbr : Nat → List Char
  | 1 => ['J', 'a', 'n'] | 2 => ['F', 'e', 'b'] | 3 => ['M', 'a', 'r']
  | 4 => ['A', 'p', 'r'] | 5 => ['M', 'a', 'y'] | 6 => ['J', 'u', 'n']
  | 7 => ['J', 'u', 'l'] | 8 => ['A', 'u', 'g'] | 9 => ['S', 'e', 'p']
  | 10 => ['O', 'c', 't'] | 11 => ['N', 'o', 'v'] | 12 => ['D', 'e', 'c']
  | _ => []

/-- Python `f"{n:02d}"`: the decimal representation zero-padded to width 2. -/
def pad2 (n : Nat) : List Char :=
  if n < 10 then '0' :: natToStr n else natToStr n

/-- Source `format_datetime`: render
`"Mon DD YYYY  H:MMAM"` with a 12-hour unpadded hour (12 for 0 and 12),
zero-padded day and minute, the year unpadded, two spaces between date and
time, and an uppercase meridiem with no separator. -/
def format_datetime (d : PyDate) (t : PyTime) : List Char :=
  let h12a := t.hour % 12
  let h12 := if h12a = 0 then 12 else h12a
  let ampm := if t.hour < 12 then ['A', 'M'] else ['P', 'M']
  monthAbbr d.month ++ ' ' ::
    (pad2 d.day ++ ' ' ::
      (natToStr d.year ++ ' ' :: ' ' ::
        (natToStr h12 ++ ':' :: (pad2 t.minute ++ ampm))))

/-- The decoder's month lookup: `match.group(1).title()` against the fixed
table Jan..Dec; an unknown abbreviation yields no month. -/
def monthNum (c1 c2 c3 : Char) : Option Nat :=
  let t := [upperChar c1, lowerChar c2, lowerChar c3]
  if t = ['J', 'a', 'n'] then Option.some 1
  else if t = ['F', 'e', 'b'] then Option.some 2
  else if t = ['M', 'a', 'r'] then Option.some 3
  else if t = ['A', 'p', 'r'] then Option.some 4
  else if t = ['M', 'a', 'y'] then Option.some 5
  else if t = ['J', 'u', 'n'] then Option.some 6
  else if t = ['J', 'u', 'l'] then Option.some 7
  else if t = ['A', 'u', 'g'] then Option.some 8
  else if t = ['S', 'e', 'p'] then Option.some 9
  else if t = ['O', 'c', 't'] then Option.some 10
  else if t = ['N', 'o', 'v'] then Option.some 11
  else if t = ['D', 'e', 'c'] then Option.some 12
  else Option.none

/-- Result of `parse_genius_datetime`: Python `None` (`noneRes`), a
`(date, time)` pair (`okRes`), or an uncaught `ValueError` escaping the
function (`errorRes`). -/
inductive ParseResult where
  | noneRes : ParseResult
  | okRes : PyDate → PyTime → ParseResult
  | errorRes : ParseResult
deriving DecidableEq

/-- The 12-hour to 24-hour conversion of the decoder: `PM` with hour other
than 12 adds 12, `AM` with hour 12 yields 0. -/
def hourConv (a1 : Char) (hr : Nat) : Nat :=
  if a1 = 'P' ∧ hr ≠ 12 then hr + 12
  else if a1 = 'A' ∧ hr = 12 then 0
  else hr

/-- Tail of the decoder once the regex groups are known: month lookup,
integer conversion, meridiem adjustment, then the `date` and `time`
constructors (whose `ValueError` escapes the function). -/
def finishParse (c1 c2 c3 : Char) (ds1 ds2 ds3 : List Char) (m1 m2 a1 : Char) : ParseResult :=
  match monthNum c1 c2 c3 with
  | Option.none => .noneRes
  | Option.some mo =>
    let day := valOfDigits ds1
    let year := valOfDigits ds2
    let hr := valOfDigits ds3
    let minute := valOfDigits [m1, m2]
    let hour := hourConv a1 hr
    match mkDate year mo day with
    | Option.none => .errorRes
    | Option.some dd =>
      match mkTime hour minute with
      | Option.none => .errorRes
      | Option.some tt => .okRes dd tt

/-- The anchored match
`^([A-Za-z]{3})\s+(\d{1,2})\s+(\d{4})\s{2}(\d{1,2}):(\d{2})(AM|PM)$` on the
stripped text, written as a deterministic scan.  Greedy digit runs are
faithful: every backtracking alternative of a bounded digit group leaves a
digit where the pattern then requires a non-digit, so shorter alternatives
never succeed. -/
def parse_core (t : List Char) : ParseResult :=
  match t with
  | c1 :: c2 :: c3 :: rest =>
    if isAsciiAlpha c1 && isAsciiAlpha c2 && isAsciiAlpha c3 then
      let sp1 := rest.takeWhile isSpace
      let r1 := rest.dropWhile isSpace
      if sp1.length = 0 then .noneRes else
      let ds1 := r1.takeWhile isDigit
      let r2 := r1.dropWhile isDigit
      if ds1.length = 0 ∨ 2 < ds1.length then .noneRes else
      let sp2 := r2.takeWhile isSpace
      let r3 := r2.dropWhile isSpace
      if sp2.length = 0 then .noneRes else
      let ds2 := r3.takeWhile isDigit
      let r4 := r3.dropWhile isDigit
      if ds2.length ≠ 4 then .noneRes else
      match r4 with
      | s1 :: s2 :: r5 =>
        if isSpace s1 && isSpace s2 then
          let ds3 := r5.takeWhile isDigit
          let r6 := r5.dropWhile isDigit
          if ds3.length = 0 ∨ 2 < ds3.length then .noneRes else
          match r6 with
          | ':' :: m1 :: m2 :: a1 :: a2 :: r7 =>
            if isDigit m1 && isDigit m2 && (a1 == 'A' || a1 == 'P') && a2 == 'M'
                && r7 == ([] : List Char) then
              finishParse c1 c2 c3 ds1 ds2 ds3 m1 m2 a1
            else .noneRes
          | _ => .noneRes
        else .noneRes
      | _ => .noneRes
    else .noneRes
  | _ => .noneRes

/-- Source `parse_genius_datetime`: `None`/NaN yield no value; any other
cell is rendered to text, stripped, and matched. -/
def parse_genius_datetime (v : Value) : ParseResult :=
  match v with
  | .vnull => .noneRes
  | v => parse_core (pyStrip (pyStr v))

/-! ### Generic list helpers -/

theorem dropWhile_dropWhile_same (p : Char → Bool) (l : List Char) :
    (l.dropWhile p).dropWhile p = l.dropWhile p := by
  induction l with
  | nil => rfl
  | cons a l ih =>
    by_cases h : p a = true
    · simp [List.dropWhile_cons, h, ih]
    · simp at h
      simp [List.dropWhile_cons, h]

theorem head?_dropWhile (p : Char → Bool) (l : List Char) (c : Char)
    (h : (l.dropWhile p).head? = some c) : p c = false := by
  induction l with
  | nil => simp at h
  | cons a l ih =>
    by_cases ha : p a = true
    · simp [List.dropWhile_cons, ha] at h
      exact ih h
    · simp at ha
      simp [List.dropWhile_cons, ha] at h
      simp [h ▸ ha]

theorem dropWhile_eq_self_of_head (p : Char → Bool) (l : List Char)
    (h : ∀ c, l.head? = some c → p c = false) : l.dropWhile p = l := by
  cases l with
  | nil => rfl
  | cons a l => simp [List.dropWhile_cons, h a rfl]

/-- Stripping is idempotent: `text.strip().strip() == text.strip()`. -/
theorem pyStrip_pyStrip (s : List Char) : pyStrip (pyStrip s) = pyStrip s := by
  unfold pyStrip
  set t := s.dropWhile isSpace with ht
  set w := t.reverse.dropWhile isSpace with hw
  have hwstable : w.dropWhile isSpace = w := by
    rw [hw]
    exact dropWhile_dropWhile_same isSpace t.reverse
  have hpref : ∃ v, t = w.reverse ++ v := by
    obtain ⟨v, hv⟩ := (List.dropWhile_suffix (l := t.reverse) isSpace)
    refine ⟨v.reverse, ?_⟩
    have := congrArg List.reverse hv
    simpa [hw] using this.symm
  have hstable : (w.reverse).dropWhile isSpace = w.reverse := by
    apply dropWhile_eq_self_of_head
    intro c hc
    obtain ⟨v, hv⟩ := hpref
    cases hwr : w.reverse with
    | nil => simp [hwr] at hc
    | cons a l =>
      have hta : t.head? = some a := by
        rw [hv, hwr]
        rfl
      have : (s.dropWhile isSpace).head? = some a := by
        rw [← ht]
        exact hta
      have ha := head?_dropWhile isSpace s a this
      simp [hwr] at hc
      simpa [hc] using ha
  rw [hstable, List.reverse_reverse, hwstable]

/-- If neither end of a list is whitespace, stripping it is the identity. -/
theorem pyStrip_eq_self (s : List Char)
    (h1 : s.dropWhile isSpace = s) (h2 : s.reverse.dropWhile isSpace = s.reverse) :
    pyStrip s = s := by
  unfold pyStrip
  rw [h1, h2, List.reverse_reverse]

theorem takeWhile_append_all (p : Char → Bool) (A B : List Char)
    (hA : ∀ c ∈ A, p c = true) (hB : ∀ c, B.head? = some c → p c = false) :
    (A ++ B).takeWhile p = A ∧ (A ++ B).dropWhile p = B := by
  induction A with
  | nil =>
    cases B with
    | nil => simp
    | cons b B =>
      have hb := hB b rfl
      simp [List.takeWhile_cons, List.dropWhile_cons, hb]
  | cons a A ih =>
    have ha := hA a (by simp)
    have ih2 := ih (fun c hc => hA c (by simp [hc]))
    simp [List.takeWhile_cons, List.dropWhile_cons, ha, ih2.1, ih2.2]

/-! ### C10: the decoder strips its input before matching -/

/-- Claim C10: for every input text, decoding the text and decoding its
stripped form agree, because the decoder strips leading and trailing
whitespace before applying its anchored match. -/
theorem decode_strip_invariant (s : List Char) :
    parse_genius_datetime (.vstr s) = parse_genius_datetime (.vstr (pyStrip s)) := by
  show parse_core (pyStrip s) = parse_core (pyStrip (pyStrip s))
  rw [pyStrip_pyStrip]

/-! ### C7: the filled-only export is a sub-selection of the full export -/

/-- Claim C7: the rows selected for the filled-only export are a sublist of
the working table (subset by row identity); the filled-only export equals
the full export filtered by `has_value` of the exported `CustomFieldValue`,
so every `filledExport` row is a `fullExport` row. -/
theorem filled_export_subset (t : List DRow) :
    (t.filter (fun r => has_value r.customFieldValue)).Sublist t
      ∧ export_genius_bytes t
          = (export_bytes t).filter (fun e => has_value e.customFieldValue)
      ∧ (export_genius_bytes t).Sublist (export_bytes t) := by
  refine ⟨List.filter_sublist t, ?_, ?_⟩
  · unfold export_genius_bytes export_bytes
    induction t with
    | nil => rfl
    | cons r t ih =>
      by_cases h : has_value r.customFieldValue = true
      · simp only [List.filter_cons, List.map_cons, h, if_pos]
        simp only [exportRow, List.map_cons]
        simp only [List.filter_cons, h, if_pos]
        exact congrArg (ExportRow.mk r.job r.operationCode r.customFieldName
          r.customFieldValue r.operationDescription1 :: ·) ih
      · simp only [Bool.not_eq_true] at h
        simp only [List.filter_cons, List.map_cons, h]
        simp only [exportRow]
        simp only [List.filter_cons, h]
        simpa [exportRow] using ih
  · unfold export_genius_bytes export_bytes
    exact List.Sublist.map exportRow (List.filter_sublist t)

/-! ### Reconciliation machinery (C3, C6, C9) -/

/-- Effect of one pending edit on one row. -/
def setRow (p : Nat × Option (List Char)) (r : DRow) : DRow :=
  if r.idx == p.1 then setCfv r (updValue p.2) else r

/-- Effect of a whole edit list on one row. -/
def applyRow (E : List (Nat × Option (List Char))) (r : DRow) : DRow :=
  E.foldl (fun r p => setRow p r) r

/-- The value written last for a given label by an edit list, if any. -/
def lastM (E : List (Nat × Option (List Char))) (i : Nat) : Option Value :=
  E.foldl (fun acc p => if p.1 == i then Option.some (updValue p.2) else acc) Option.none

/-- The fold underlying `apply_updates`, without the empty-map shortcut. -/
def applyAux (E : List (Nat × Option (List Char))) (t : List DRow) : List DRow :=
  E.foldl (fun acc p => setValueAt acc p.1 (updValue p.2)) t

theorem apply_updates_eq_applyAux (t : List DRow) (E : List (Nat × Option (List Char))) :
    apply_updates t E = applyAux E t := by
  cases E with
  | nil => rfl
  | cons e E => rfl

theorem lastM_init (E : List (Nat × Option (List Char))) (i : Nat) (a : Option Value) :
    E.foldl (fun acc p => if p.1 == i then Option.some (updValue p.2) else acc) a
      = (match lastM E i with
         | Option.none => a
         | Option.some v => Option.some v) := by
  induction E generalizing a with
  | nil => simp [lastM]
  | cons e E ih =>
    show E.foldl _ (if e.1 == i then _ else a) = _
    rw [ih]
    have hl : lastM (e :: E) i
        = E.foldl (fun acc p => if p.1 == i then Option.some (updValue p.2) else acc)
            (if e.1 == i then Option.some (updValue e.2) else Option.none) := rfl
    rw [hl, ih]
    by_cases h : e.1 == i
    · simp only [h, if_pos]
      cases lastM E i <;> rfl
    · simp only [Bool.not_eq_true] at h
      simp only [h]
      cases lastM E i <;> simp

theorem setCfv_idx (r : DRow) (v : Value) : (setCfv r v).idx = r.idx := rfl

theorem applyRow_char (E : List (Nat × Option (List Char))) (r : DRow) :
    applyRow E r
      = (match lastM E r.idx with
         | Option.none => r
         | Option.some v => setCfv r v) := by
  induction E generalizing r with
  | nil => simp [applyRow, lastM]
  | cons e E ih =>
    show applyRow E (setRow e r) = _
    rw [ih]
    have hidx : (setRow e r).idx = r.idx := by
      unfold setRow
      by_cases h : r.idx == e.1 <;> simp [h, setCfv_idx]
    rw [hidx]
    have hl : lastM (e :: E) r.idx
        = E.foldl (fun acc p => if p.1 == r.idx then Option.some (updValue p.2) else acc)
            (if e.1 == r.idx then Option.some (updValue e.2) else Option.none) := rfl
    rw [hl, lastM_init]
    unfold setRow
    cases hM : lastM E r.idx with
    | none =>
      by_cases h : r.idx = e.1
      · simp [h]
      · simp [h, Ne.symm h]
    | some v =>
      by_cases h : r.idx = e.1
      · simp [h, setCfv]
      · simp [h, Ne.symm h]

theorem applyRow_idx (E : List (Nat × Option (List Char))) (r : DRow) :
    (applyRow E r).idx = r.idx := by
  rw [applyRow_char]
  cases lastM E r.idx <;> simp [setCfv_idx]

theorem applyRow_applyRow (E : List (Nat × Option (List Char))) (r : DRow) :
    applyRow E (applyRow E r) = applyRow E r := by
  rw [applyRow_char E r]
  cases h : lastM E r.idx with
  | none =>
    rw [applyRow_char, h]
  | some v =>
    rw [applyRow_char, setCfv_idx, h]
    simp [setCfv]

/-- Whether some row of the table carries a given label. -/
def hasIdx (t : List DRow) (i : Nat) : Bool :=
  t.any (fun r => r.idx == i)

theorem hasIdx_setValueAt_self (t : List DRow) (i : Nat) (v : Value) :
    hasIdx (setValueAt t i v) i = true := by
  unfold setValueAt
  by_cases h : t.any (fun r => r.idx == i) = true
  · simp only [h, if_pos]
    unfold hasIdx
    rw [List.any_eq_true] at h ⊢
    obtain ⟨r, hr, hri⟩ := h
    refine ⟨if r.idx == i then setCfv r v else r, List.mem_map.mpr ⟨r, hr, rfl⟩, ?_⟩
    simp [hri, setCfv_idx]
  · simp only [Bool.not_eq_true] at h
    simp only [h]
    unfold hasIdx
    rw [List.any_eq_true]
    exact ⟨⟨i, .vnull, .vnull, .vnull, v, .vnull, .vnull⟩, by simp, by simp⟩

theorem hasIdx_setValueAt_mono (t : List DRow) (i j : Nat) (v : Value)
    (h : hasIdx t j = true) : hasIdx (setValueAt t i v) j = true := by
  unfold setValueAt
  unfold hasIdx at h
  rw [List.any_eq_true] at h
  obtain ⟨r, hr, hrj⟩ := h
  by_cases hp : t.any (fun r => r.idx == i) = true
  · simp only [hp, if_pos]
    unfold hasIdx
    rw [List.any_eq_true]
    refine ⟨if r.idx == i then setCfv r v else r, List.mem_map.mpr ⟨r, hr, rfl⟩, ?_⟩
    by_cases hq : r.idx == i <;> simp [hq, setCfv_idx, hrj]
  · simp only [Bool.not_eq_true] at hp
    simp only [hp]
    unfold hasIdx
    rw [List.any_eq_true]
    exact ⟨r, by simp [hr], hrj⟩

theorem hasIdx_applyAux_mono (E : List (Nat × Option (List Char))) (t : List DRow) (j : Nat)
    (h : hasIdx t j = true) : hasIdx (applyAux E t) j = true := by
  induction E generalizing t with
  | nil => exact h
  | cons e E ih =>
    show hasIdx (applyAux E (setValueAt t e.1 (updValue e.2))) j = true
    exact ih _ (hasIdx_setValueAt_mono t e.1 j _ h)

theorem hasIdx_applyAux_of_mem (E : List (Nat × Option (List Char))) (t : List DRow)
    (p : Nat × Option (List Char)) (hp : p ∈ E) : hasIdx (applyAux E t) p.1 = true := by
  induction E generalizing t with
  | nil => simp at hp
  | cons e E ih =>
    rcases List.mem_cons.mp hp with rfl | hp
    · show hasIdx (applyAux E (setValueAt t p.1 (updValue p.2))) p.1 = true
      exact hasIdx_applyAux_mono E _ p.1 (hasIdx_setValueAt_self t p.1 _)
    · exact ih _ hp

theorem setValueAt_of_hasIdx (t : List DRow) (i : Nat) (v : Value)
    (h : hasIdx t i = true) :
    setValueAt t i v = t.map (fun r => if r.idx == i then setCfv r v else r) := by
  unfold setValueAt
  unfold hasIdx at h
  simp [h]

theorem hasIdx_map_setRow (t : List DRow) (e : Nat × Option (List Char)) (j : Nat) :
    hasIdx (t.map (fun r => if r.idx == e.1 then setCfv r (updValue e.2) else r)) j
      = hasIdx t j := by
  unfold hasIdx
  induction t with
  | nil => rfl
  | cons r t ih =>
    simp only [List.map_cons, List.any_cons, ih]
    congr 1
    by_cases h : (r.idx == e.1) = true
    · simp [h, setCfv_idx]
    · simp only [Bool.not_eq_true] at h
      simp [h]

theorem applyAux_all_present (E : List (Nat × Option (List Char))) (t : List DRow)
    (h : ∀ p ∈ E, hasIdx t p.1 = true) :
    applyAux E t = t.map (applyRow E) := by
  induction E generalizing t with
  | nil =>
    show t = t.map (applyRow [])
    have : ∀ r ∈ t, applyRow [] r = r := fun r _ => rfl
    rw [List.map_congr_left this, List.map_id']
  | cons e E ih =>
    show applyAux E (setValueAt t e.1 (updValue e.2)) = _
    rw [setValueAt_of_hasIdx t e.1 _ (h e (by simp))]
    rw [ih]
    · rw [List.map_map]
      rfl
    · intro p hp
      rw [hasIdx_map_setRow]
      exact h p (by simp [hp])

theorem lastM_cons (e : Nat × Option (List Char)) (E : List (Nat × Option (List Char)))
    (i : Nat) :
    lastM (e :: E) i
      = (match lastM E i with
         | Option.none => if e.1 == i then Option.some (updValue e.2) else Option.none
         | Option.some v => Option.some v) := by
  have hl : lastM (e :: E) i
      = E.foldl (fun acc p => if p.1 == i then Option.some (updValue p.2) else acc)
          (if e.1 == i then Option.some (updValue e.2) else Option.none) := rfl
  rw [hl, lastM_init]

theorem mem_setValueAt_untouched (t : List DRow) (i : Nat) (v : Value) (r : DRow)
    (hr : r ∈ setValueAt t i v) (hne : (r.idx == i) = false) : r ∈ t := by
  unfold setValueAt at hr
  by_cases hp : t.any (fun x => x.idx == i) = true
  · simp only [hp, if_pos] at hr
    obtain ⟨r0, hr0, heq⟩ := List.mem_map.mp hr
    by_cases hq : (r0.idx == i) = true
    · exfalso
      rw [if_pos hq] at heq
      rw [← heq, setCfv_idx] at hne
      rw [hq] at hne
      exact Bool.noConfusion hne
    · rw [if_neg hq] at heq
      rw [← heq]
      exact hr0
  · simp only [Bool.not_eq_true] at hp
    simp only [hp] at hr
    rcases List.mem_append.mp hr with h | h
    · exact h
    · exfalso
      rw [List.mem_singleton] at h
      rw [h] at hne
      simp at hne

theorem setValueAt_cfv (t : List DRow) (i : Nat) (v : Value) (r : DRow)
    (hr : r ∈ setValueAt t i v) (hi : (r.idx == i) = true) : r.customFieldValue = v := by
  unfold setValueAt at hr
  by_cases hp : t.any (fun x => x.idx == i) = true
  · simp only [hp, if_pos] at hr
    obtain ⟨r0, hr0, heq⟩ := List.mem_map.mp hr
    by_cases hq : (r0.idx == i) = true
    · rw [if_pos hq] at heq
      rw [← heq]
      rfl
    · exfalso
      rw [if_neg hq] at heq
      rw [heq] at hq
      exact hq hi
  · simp only [Bool.not_eq_true] at hp
    simp only [hp] at hr
    rcases List.mem_append.mp hr with h | h
    · exfalso
      have : t.any (fun x => x.idx == i) = true := List.any_eq_true.mpr ⟨r, h, hi⟩
      rw [hp] at this
      exact Bool.noConfusion this
    · rw [List.mem_singleton] at h
      rw [h]

theorem setCfv_eq_self (r : DRow) (v : Value) (h : r.customFieldValue = v) :
    setCfv r v = r := by
  cases r
  simp only [setCfv]
  simp_all

theorem applyAux_untouched (E : List (Nat × Option (List Char))) (t : List DRow) (r : DRow)
    (hr : r ∈ applyAux E t) (hM : lastM E r.idx = Option.none) : r ∈ t := by
  induction E generalizing t with
  | nil => exact hr
  | cons e E ih =>
    have hr2 : r ∈ applyAux E (setValueAt t e.1 (updValue e.2)) := hr
    rw [lastM_cons] at hM
    cases hME : lastM E r.idx with
    | some w => rw [hME] at hM; exact Option.noConfusion hM
    | none =>
      rw [hME] at hM
      by_cases he : (e.1 == r.idx) = true
      · rw [if_pos he] at hM
        exact Option.noConfusion hM
      · have hne : (r.idx == e.1) = false := by
          simp only [Bool.not_eq_true, beq_eq_false_iff_ne, ne_eq] at he ⊢
          exact fun hc => he hc.symm
        exact mem_setValueAt_untouched t e.1 _ r (ih _ hr2 hME) hne

theorem applyAux_row_stable (E : List (Nat × Option (List Char))) (t : List DRow) (r : DRow)
    (hr : r ∈ applyAux E t) : applyRow E r = r := by
  induction E generalizing t with
  | nil => rfl
  | cons e E ih =>
    have hr2 : r ∈ applyAux E (setValueAt t e.1 (updValue e.2)) := hr
    have hstab := ih _ hr2
    show applyRow E (setRow e r) = r
    unfold setRow
    by_cases h : (r.idx == e.1) = true
    · rw [if_pos h]
      rw [applyRow_char, setCfv_idx]
      cases hM : lastM E r.idx with
      | some w =>
        have hch := applyRow_char E r
        rw [hM, hstab] at hch
        calc setCfv (setCfv r (updValue e.2)) w = setCfv r w := rfl
        _ = r := hch.symm
      | none =>
        have hrin : r ∈ setValueAt t e.1 (updValue e.2) := applyAux_untouched E _ r hr2 hM
        exact setCfv_eq_self r _ (setValueAt_cfv t e.1 _ r hrin h)
    · rw [if_neg h]
      exact hstab

/-! ### C6: reconciliation is idempotent; the clear marker empties the cell -/

/-- Claim C6: reconciliation is idempotent — applying the same pending-edit
map twice yields the same table as applying it once (the embedding is
functional, mirroring the source which works on a copy and never mutates
its input) — and an edit carrying the clear marker (Python `None`) sets the
`CustomFieldValue` of every row at that position to the empty string. -/
theorem reconcile_idempotent_clear (T : List DRow) (E : List (Nat × Option (List Char))) :
    apply_updates (apply_updates T E) E = apply_updates T E
      ∧ ∀ (i : Nat) (r : DRow), r ∈ apply_updates T [(i, Option.none)] → r.idx = i →
          r.customFieldValue = .vstr [] := by
  constructor
  · rw [apply_updates_eq_applyAux T E, apply_updates_eq_applyAux _ E]
    rw [applyAux_all_present E (applyAux E T) (fun p hp => hasIdx_applyAux_of_mem E T p hp)]
    have h1 : (applyAux E T).map (applyRow E) = (applyAux E T).map (fun r => r) :=
      List.map_congr_left (fun r hr => applyAux_row_stable E T r hr)
    rw [h1, List.map_id']
  · intro i r hr hi
    rw [apply_updates_eq_applyAux] at hr
    have hr2 : r ∈ setValueAt T i (updValue Option.none) := hr
    exact setValueAt_cfv T i _ r hr2 (by simp [hi])

/-- Witness for C6 at a concrete table and edit map: one reconciliation of
the edit map equals two, and a cleared row carries the empty string. -/
theorem reconcile_idempotent_clear_witness :
    apply_updates
        (apply_updates [⟨0, .vnull, .vnull, .vnull, .vstr ['a'], .vnull, .vnat 0⟩]
          [(0, Option.some ['b'])])
        [(0, Option.some ['b'])]
      = apply_updates [⟨0, .vnull, .vnull, .vnull, .vstr ['a'], .vnull, .vnat 0⟩]
          [(0, Option.some ['b'])]
    ∧ (⟨0, Value.vnull, Value.vnull, Value.vnull, Value.vstr [], Value.vnull,
        Value.vnat 0⟩ : DRow).customFieldValue = Value.vstr [] :=
  ⟨(reconcile_idempotent_clear [⟨0, .vnull, .vnull, .vnull, .vstr ['a'], .vnull, .vnat 0⟩]
      [(0, Option.some ['b'])]).1,
   (reconcile_idempotent_clear [⟨0, .vnull, .vnull, .vnull, .vstr ['a'], .vnull, .vnat 0⟩]
      [(0, Option.some ['b'])]).2 0
      ⟨0, Value.vnull, Value.vnull, Value.vnull, Value.vstr [], Value.vnull, Value.vnat 0⟩
      (by decide) rfl⟩

/-! ### C3: edits at positions absent from the working table -/

/-- Claim C3 fails on the code: reconciling a one-row table with an edit at
the absent position 5 does not leave the table's rows unchanged — pandas
`.at` enlarges the frame, so a second row appears. -/
theorem reconcile_out_of_range_counterexample :
    apply_updates [⟨0, .vnull, .vnull, .vnull, .vstr [], .vnull, .vnat 0⟩]
        [(5, Option.some ['x'])]
      ≠ [⟨0, .vnull, .vnull, .vnull, .vstr [], .vnull, .vnat 0⟩]
    ∧ (apply_updates [⟨0, .vnull, .vnull, .vnull, .vstr [], .vnull, .vnat 0⟩]
        [(5, Option.some ['x'])]).length = 2 := by
  decide

/-- Claim C3 (amended): an edit whose position is not an index of any row
of the working table is not ignored and raises no error — pandas enlarges
the frame, appending a fresh row that carries the edited position as label,
the written value (empty string for the clear marker) as `CustomFieldValue`,
and null in every other column including `_orig_index`. -/
theorem reconcile_out_of_range_appends (T : List DRow) (i : Nat) (v : Option (List Char))
    (h : hasIdx T i = false) :
    apply_updates T [(i, v)]
      = T ++ [⟨i, .vnull, .vnull, .vnull, updValue v, .vnull, .vnull⟩] := by
  rw [apply_updates_eq_applyAux]
  show setValueAt T i (updValue v) = _
  unfold setValueAt
  unfold hasIdx at h
  simp [h]

/-- Witness for the amended C3: clearing absent position 7 of a one-row
table appends a fresh row with an empty value and null bookkeeping. -/
theorem reconcile_out_of_range_appends_witness :
    apply_updates [⟨0, .vnull, .vnull, .vnull, .vstr [], .vnull, .vnat 0⟩] [(7, Option.none)]
      = [⟨0, .vnull, .vnull, .vnull, .vstr [], .vnull, .vnat 0⟩]
        ++ [⟨7, .vnull, .vnull, .vnull, .vstr [], .vnull, .vnull⟩] :=
  reconcile_out_of_range_appends [⟨0, .vnull, .vnull, .vnull, .vstr [], .vnull, .vnat 0⟩]
    7 Option.none (by decide)

/-! ### C1: the row classification rule -/

theorem has_value_iff (v : Value) :
    has_value v = true ↔ (v ≠ Value.vnull ∧ pyStrip (pyStr v) ≠ []) := by
  cases v with
  | vnull => simp [has_value]
  | vstr s => simp [has_value, pyStr]
  | vnat n => simp [has_value, pyStr]

theorem is_ass_target_iff (r : RawRow) :
    is_ass_target r = true ↔
      (normalize_text r.operationCode = "ass".toList
        ∧ normalize_text r.customFieldName ∈ target_fields) := by
  unfold is_ass_target
  rw [Bool.and_eq_true, beq_iff_eq, List.elem_iff]

theorem keepRow_iff (r : RawRow) :
    keepRow r = true ↔
      ¬((r.customFieldValue ≠ Value.vnull ∧ pyStrip (pyStr r.customFieldValue) ≠ [])
        ∨ (normalize_text r.operationCode = "ass".toList
            ∧ normalize_text r.customFieldName ∈ target_fields)) := by
  constructor
  · intro hk hcon
    rcases hcon with hA | hB
    · rw [← has_value_iff] at hA
      simp [keepRow, hA] at hk
    · rw [← is_ass_target_iff] at hB
      simp [keepRow, hB] at hk
  · intro hn
    have hA : has_value r.customFieldValue = false := by
      rw [← Bool.not_eq_true]
      intro hA
      exact hn (Or.inl ((has_value_iff _).mp hA))
    have hB : is_ass_target r = false := by
      rw [← Bool.not_eq_true]
      intro hB
      exact hn (Or.inr ((is_ass_target_iff r).mp hB))
    simp [keepRow, hA, hB]

/-- Claim C1: a raw row survives into the working set exactly when it
neither already has a value (a value being present means it is not null and
does not strip to the empty string) nor is an assembly target (operation
code normalizing to "ass" with a field name normalizing into the fixed
five-element set). -/
theorem clean_df_keep_iff (raw : List RawRow) (i : Nat) (r : RawRow)
    (h : raw[i]? = some r) :
    (∃ dr ∈ clean_df raw, dr.idx = i) ↔
      ¬((r.customFieldValue ≠ Value.vnull ∧ pyStrip (pyStr r.customFieldValue) ≠ [])
        ∨ (normalize_text r.operationCode = "ass".toList
            ∧ normalize_text r.customFieldName ∈ target_fields)) := by
  rw [← keepRow_iff]
  constructor
  · rintro ⟨dr, hdr, hidx⟩
    unfold clean_df at hdr
    obtain ⟨p, hp, hpd⟩ := List.mem_map.mp hdr
    have hpf := List.mem_filter.mp hp
    have hidx2 : p.1 = i := by
      rw [← hpd] at hidx
      exact hidx
    have hg : raw[p.1]? = some p.2 :=
      List.mk_mem_enum_iff_getElem?.mp (by rw [show (p.1, p.2) = p from rfl]; exact hpf.1)
    rw [hidx2, h] at hg
    have hval : p.2 = r := by
      injection hg with he
      exact he.symm
    rw [← hval]
    exact hpf.2
  · intro hkeep
    have henum : (i, r) ∈ raw.enum := List.mk_mem_enum_iff_getElem?.mpr h
    refine ⟨toDRow i r, ?_, rfl⟩
    unfold clean_df
    exact List.mem_map.mpr ⟨(i, r), List.mem_filter.mpr ⟨henum, hkeep⟩, rfl⟩

/-- Witness for C1 on a two-row table: a blank non-assembly row is kept,
and an "ASS" row on field "Diamètre" (accent and case variants of the
normalized keys) is excluded even though its value is blank. -/
theorem clean_df_keep_iff_witness :
    (∃ dr ∈ clean_df
        [⟨.vstr ("J1".toList), .vstr ("100".toList), .vstr ("Sch".toList), .vnull, .vnull⟩,
         ⟨.vstr ("J1".toList), .vstr ("ASS".toList), .vstr ("Diamètre".toList), .vnull, .vnull⟩],
      dr.idx = 0)
    ∧ ¬(∃ dr ∈ clean_df
        [⟨.vstr ("J1".toList), .vstr ("100".toList), .vstr ("Sch".toList), .vnull, .vnull⟩,
         ⟨.vstr ("J1".toList), .vstr ("ASS".toList), .vstr ("Diamètre".toList), .vnull, .vnull⟩],
      dr.idx = 1) := by
  constructor
  · exact (clean_df_keep_iff _ 0
      ⟨.vstr ("J1".toList), .vstr ("100".toList), .vstr ("Sch".toList), .vnull, .vnull⟩
      (by decide)).mpr (by decide)
  · intro hcon
    exact absurd ((clean_df_keep_iff _ 1
      ⟨.vstr ("J1".toList), .vstr ("ASS".toList), .vstr ("Diamètre".toList), .vnull, .vnull⟩
      (by decide)).mp hcon) (by decide)

/-! ### C5: decode is not total — out-of-range fields raise -/

/-- Claim C5 fails on the code: the text "Feb 30 2024  3:30PM" matches the
decoder's regular expression, but the `date` constructor then raises
`ValueError` (February 2024 has 29 days), so `parse_genius_datetime`
propagates an exception instead of returning a value or `None`. -/
theorem decode_raises_on_invalid_day :
    parse_genius_datetime (.vstr ("Feb 30 2024  3:30PM".toList)) = .errorRes
    ∧ parse_genius_datetime (.vstr ("Jan 05 2024  13:30PM".toList)) = .errorRes := by
  decide

/-! ### C2: the encode/decode round trip -/

/-- Claim C2 fails on the code for years below 1000: the encoder renders
the year unpadded, the decoder demands exactly four year digits, so the
valid date 0999-01-05 at 15:30 encodes to "Jan 05 999  3:30PM" which
decodes to `None`, not to the original pair. -/
theorem roundtrip_counterexample :
    parse_genius_datetime (.vstr (format_datetime ⟨999, 1, 5⟩ ⟨15, 30⟩)) = .noneRes
    ∧ ParseResult.noneRes ≠ ParseResult.okRes ⟨999, 1, 5⟩ ⟨15, 30⟩ := by
  decide

/-! ### C4: the natural sort key -/

theorem drop_takeWhile_eq_dropWhile (p : Char → Bool) (l : List Char) :
    l.drop (l.takeWhile p).length = l.dropWhile p := by
  have h := List.takeWhile_append_dropWhile p l
  calc l.drop (l.takeWhile p).length
      = (l.takeWhile p ++ l.dropWhile p).drop (l.takeWhile p).length := by rw [h]
    _ = l.dropWhile p := List.drop_left _ _

theorem isSpace_isDigit_false (c : Char) (h : isSpace c = true) : isDigit c = false := by
  unfold isSpace at h
  unfold isDigit
  rw [Bool.eq_false_iff]
  intro hd
  simp only [Bool.or_eq_true, Bool.and_eq_true, decide_eq_true_eq] at h hd
  omega

theorem firstDigitRun_append (pre ds suf : List Char)
    (hpre : ∀ c ∈ pre, isDigit c = false ∧ c ≠ '\n')
    (hds : ds ≠ []) (hdsD : ∀ c ∈ ds, isDigit c = true)
    (hsuf : ∀ c, suf.head? = some c → isDigit c = false) :
    firstDigitRun (pre ++ (ds ++ suf)) = Option.some ds := by
  induction pre with
  | nil =>
    cases ds with
    | nil => exact absurd rfl hds
    | cons d ds2 =>
      have hd := hdsD d (by simp)
      have htw : ((d :: ds2) ++ suf).takeWhile isDigit = d :: ds2 :=
        (takeWhile_append_all isDigit (d :: ds2) suf hdsD hsuf).1
      show firstDigitRun (d :: (ds2 ++ suf)) = Option.some (d :: ds2)
      unfold firstDigitRun
      rw [hd, if_pos rfl]
      rw [List.cons_append] at htw
      rw [htw]
  | cons c pre2 ih =>
    have hc := hpre c (by simp)
    show firstDigitRun (c :: (pre2 ++ (ds ++ suf))) = Option.some ds
    unfold firstDigitRun
    rw [hc.1, if_neg Bool.false_ne_true, if_neg hc.2]
    exact ih (fun x hx => hpre x (by simp [hx]))

/-- Claim C4 fails on the code: the label "1A2" contains the letter run "A"
followed by the digit run "2", yet because the second regular expression is
anchored by `re.match`, the letters must start the string; the key falls to
group 1 `(1, orig_index)` instead of the claimed `(0, "a", 2)`. -/
theorem natural_key_counterexample :
    natural_sort_key_joint (.vstr ("1A2".toList)) 7 = .fallback 7
    ∧ SortKey.fallback 7 ≠ .alpha ("a".toList) 2 := by
  decide

/-- Claim C4 (amended): the letter run must begin the trimmed label and the
first digit run must be reachable without crossing a newline (the lazy
`.*?` cannot match `\n`).  When the trimmed label splits as
`letters ++ gap ++ digits ++ rest` — letters nonempty and maximal, the gap
free of digits and newlines, the digit run maximal — the key is group 0
with the lowercased letters and the numeric value of the digit run (whether
or not the anchored full-string pattern also matches). -/
theorem natural_key_leading_letters (s ls pre ds suf : List Char) (i : Nat)
    (hs : pyStrip s = ls ++ (pre ++ (ds ++ suf)))
    (hls : ls ≠ [])
    (hlsA : ∀ c ∈ ls, isAsciiAlpha c = true)
    (hhead : ∀ c, (pre ++ (ds ++ suf)).head? = some c → isAsciiAlpha c = false)
    (hpre : ∀ c ∈ pre, isDigit c = false ∧ c ≠ '\n')
    (hds : ds ≠ [])
    (hdsD : ∀ c ∈ ds, isDigit c = true)
    (hsuf : ∀ c, suf.head? = some c → isDigit c = false) :
    natural_sort_key_joint (.vstr s) i = .alpha (ls.map lowerChar) (valOfDigits ds) := by
  have hkey : natural_sort_key_joint (.vstr s) i = natKeyText (pyStrip s) i := rfl
  rw [hkey, hs]
  have hdsHead : ∀ c, (ds ++ suf).head? = some c → (!isDigit c) = false := by
    intro c hc
    cases ds with
    | nil => exact absurd rfl hds
    | cons d ds2 =>
      have hcd : c = d := by
        simp only [List.cons_append, List.head?_cons, Option.some_inj] at hc
        exact hc.symm
      rw [hcd, hdsD d (by simp)]
      rfl
  have hTake : ((ls ++ (pre ++ (ds ++ suf)))).takeWhile isAsciiAlpha = ls :=
    (takeWhile_append_all isAsciiAlpha ls _ hlsA hhead).1
  have hFDR : firstDigitRun (pre ++ (ds ++ suf)) = Option.some ds :=
    firstDigitRun_append pre ds suf hpre hds hdsD hsuf
  simp only [natKeyText]
  rw [hTake, if_neg hls, List.drop_left]
  rw [drop_takeWhile_eq_dropWhile isSpace (pre ++ (ds ++ suf))]
  rw [drop_takeWhile_eq_dropWhile isDigit ((pre ++ (ds ++ suf)).dropWhile isSpace)]
  set R := pre ++ (ds ++ suf) with hR
  by_cases hm1 : (R.dropWhile isSpace).takeWhile isDigit ≠ []
      ∧ (R.dropWhile isSpace).dropWhile isDigit = []
  · rw [if_pos hm1]
    set W := R.dropWhile isSpace with hW
    have hWall : W.takeWhile isDigit = W := by
      have hsplit := List.takeWhile_append_dropWhile isDigit W
      rw [hm1.2, List.append_nil] at hsplit
      exact hsplit
    have hWdig : ∀ c ∈ W, isDigit c = true := by
      intro c hc
      rw [← hWall] at hc
      exact List.mem_takeWhile_imp hc
    have hpreB : ∀ c ∈ pre, (!isDigit c) = true := by
      intro c hc
      rw [(hpre c hc).1]
      rfl
    have hT1 : R.takeWhile (fun c => !isDigit c) = pre :=
      (takeWhile_append_all (fun c => !isDigit c) pre (ds ++ suf) hpreB hdsHead).1
    have hT2 : R.takeWhile (fun c => !isDigit c) = R.takeWhile isSpace := by
      conv_lhs => rw [(List.takeWhile_append_dropWhile isSpace R).symm]
      refine (takeWhile_append_all (fun c => !isDigit c) (R.takeWhile isSpace) W ?_ ?_).1
      · intro c hc
        have hcd := isSpace_isDigit_false c (List.mem_takeWhile_imp hc)
        simp [hcd]
      · intro c hc
        cases hWc : W with
        | nil => rw [hWc] at hc; exact Option.noConfusion hc
        | cons w W2 =>
          rw [hWc] at hc
          simp only [List.head?_cons, Option.some_inj] at hc
          have hcW : c ∈ W := by
            rw [hWc, hc]
            simp
          simp [hWdig c hcW]
    have hpre_sp : pre = R.takeWhile isSpace := by
      rw [← hT1, hT2]
    have hRW : R = pre ++ W := by
      rw [hpre_sp]
      exact (List.takeWhile_append_dropWhile isSpace R).symm
    have hWds : ds ++ suf = W := by
      have hcan : pre ++ (ds ++ suf) = pre ++ W := by rw [← hRW]
      exact List.append_cancel_left hcan
    have hsufnil : suf = [] := by
      cases hsc : suf with
      | nil => rfl
      | cons c suf2 =>
        exfalso
        have hcW : c ∈ W := by
          rw [← hWds, hsc]
          simp
        have h1 := hWdig c hcW
        have h2 := hsuf c (by rw [hsc]; rfl)
        rw [h1] at h2
        exact Bool.noConfusion h2
    have hdsW : ds = W := by
      rw [← hWds, hsufnil, List.append_nil]
    rw [hWall, ← hdsW]
  · rw [if_neg hm1, hFDR]

/-- Witness for the amended C4: the label "A-2" has its letters at the
start, a non-digit gap, then the digit run "2"; the key is group 0 with
lowercased letters and the numeric value 2. -/
theorem natural_key_leading_letters_witness :
    natural_sort_key_joint (.vstr ("A-2".toList)) 3 = .alpha ("a".toList) 2 :=
  natural_key_leading_letters ("A-2".toList) ['A'] ['-'] ['2'] [] 3
    (by decide) (by decide) (by decide) (by decide) (by decide) (by decide)
    (by decide) (by decide)

/-! ### C9: original positions are unique and immutable -/

theorem setValueAt_idx_map (t : List DRow) (i : Nat) (v : Value) :
    (setValueAt t i v).map (fun r => r.idx) = t.map (fun r => r.idx)
      ∨ ((setValueAt t i v).map (fun r => r.idx) = t.map (fun r => r.idx) ++ [i]
          ∧ hasIdx t i = false) := by
  unfold setValueAt
  by_cases hp : t.any (fun r => r.idx == i) = true
  · left
    simp only [hp, if_pos, List.map_map]
    apply List.map_congr_left
    intro r hr
    by_cases hq : (r.idx == i) = true
    · simp [Function.comp, hq, setCfv_idx]
    · simp only [Bool.not_eq_true] at hq
      simp [Function.comp, hq]
  · right
    simp only [Bool.not_eq_true] at hp
    simp [hp, hasIdx]

theorem setValueAt_nodup (t : List DRow) (i : Nat) (v : Value)
    (h : (t.map (fun r => r.idx)).Nodup) :
    ((setValueAt t i v).map (fun r => r.idx)).Nodup := by
  rcases setValueAt_idx_map t i v with heq | ⟨heq, habs⟩
  · rw [heq]
    exact h
  · rw [heq]
    apply List.Nodup.append h (List.nodup_singleton i)
    intro a ha hb
    rw [List.mem_singleton] at hb
    rw [hb] at ha
    obtain ⟨r, hr, hri⟩ := List.mem_map.mp ha
    unfold hasIdx at habs
    have hcon : t.any (fun r => r.idx == i) = true :=
      List.any_eq_true.mpr ⟨r, hr, by simp [hri]⟩
    rw [habs] at hcon
    exact Bool.noConfusion hcon

theorem setValueAt_orig (L0 : List Nat) (t : List DRow) (i : Nat) (v : Value)
    (hpres : ∀ j ∈ L0, hasIdx t j = true)
    (horig : ∀ r ∈ t, r.idx ∈ L0 → r.origIndex = .vnat r.idx) :
    ∀ r ∈ setValueAt t i v, r.idx ∈ L0 → r.origIndex = .vnat r.idx := by
  intro r hr hrL
  unfold setValueAt at hr
  by_cases hp : t.any (fun x => x.idx == i) = true
  · simp only [hp, if_pos] at hr
    obtain ⟨r0, hr0, heq⟩ := List.mem_map.mp hr
    by_cases hq : (r0.idx == i) = true
    · rw [if_pos hq] at heq
      rw [← heq] at hrL ⊢
      exact horig r0 hr0 hrL
    · rw [if_neg hq] at heq
      rw [← heq] at hrL ⊢
      exact horig r0 hr0 hrL
  · simp only [Bool.not_eq_true] at hp
    simp only [hp] at hr
    rcases List.mem_append.mp hr with h | h
    · exact horig r h hrL
    · exfalso
      rw [List.mem_singleton] at h
      subst h
      have hcon := hpres i hrL
      unfold hasIdx at hcon
      rw [hp] at hcon
      exact Bool.noConfusion hcon

theorem applyAux_invariants (L0 : List Nat) (E : List (Nat × Option (List Char)))
    (t : List DRow)
    (h1 : (t.map (fun r => r.idx)).Nodup)
    (h2 : ∀ j ∈ L0, hasIdx t j = true)
    (h3 : ∀ r ∈ t, r.idx ∈ L0 → r.origIndex = .vnat r.idx) :
    ((applyAux E t).map (fun r => r.idx)).Nodup
    ∧ (∀ j ∈ L0, hasIdx (applyAux E t) j = true)
    ∧ (∀ r ∈ applyAux E t, r.idx ∈ L0 → r.origIndex = .vnat r.idx) := by
  induction E generalizing t with
  | nil => exact ⟨h1, h2, h3⟩
  | cons e E ih =>
    exact ih _ (setValueAt_nodup t e.1 _ h1)
      (fun j hj => hasIdx_setValueAt_mono t e.1 j _ (h2 j hj))
      (setValueAt_orig L0 t e.1 _ h2 h3)

theorem foldl_apply_updates_invariants (L0 : List Nat)
    (Es : List (List (Nat × Option (List Char)))) (T : List DRow)
    (h1 : (T.map (fun r => r.idx)).Nodup)
    (h2 : ∀ j ∈ L0, hasIdx T j = true)
    (h3 : ∀ r ∈ T, r.idx ∈ L0 → r.origIndex = .vnat r.idx) :
    ((Es.foldl apply_updates T).map (fun r => r.idx)).Nodup
    ∧ (∀ j ∈ L0, hasIdx (Es.foldl apply_updates T) j = true)
    ∧ (∀ r ∈ Es.foldl apply_updates T, r.idx ∈ L0 → r.origIndex = .vnat r.idx) := by
  induction Es generalizing T with
  | nil => exact ⟨h1, h2, h3⟩
  | cons E Es ih =>
    have hfold : (E :: Es).foldl apply_updates T = Es.foldl apply_updates (applyAux E T) := by
      show Es.foldl apply_updates (apply_updates T E) = _
      rw [apply_updates_eq_applyAux]
    rw [hfold]
    have h := applyAux_invariants L0 E T h1 h2 h3
    exact ih _ h.1 h.2.1 h.2.2

/-- Claim C9: positions assigned at ingestion are unique — after any
sequence of reconciliations the table's index labels are pairwise distinct —
and immutable: every row still carrying an ingestion label has its recorded
original position equal to that label, exactly as `clean_df` wrote it. -/
theorem original_position_invariant (raw : List RawRow)
    (Es : List (List (Nat × Option (List Char)))) :
    ((Es.foldl apply_updates (clean_df raw)).map (fun r => r.idx)).Nodup
    ∧ ∀ r ∈ Es.foldl apply_updates (clean_df raw),
        r.idx ∈ (clean_df raw).map (fun r => r.idx) → r.origIndex = .vnat r.idx := by
  have e1 : (clean_df raw).map (fun r => r.idx)
      = (raw.enum.filter (fun p => keepRow p.2)).map Prod.fst := by
    unfold clean_df
    rw [List.map_map]
    rfl
  have h1 : ((clean_df raw).map (fun r => r.idx)).Nodup := by
    rw [e1]
    have e2 : ((raw.enum.filter (fun p => keepRow p.2)).map Prod.fst).Sublist
        (raw.enum.map Prod.fst) := (List.filter_sublist raw.enum).map Prod.fst
    rw [List.enum_map_fst] at e2
    exact e2.nodup (List.nodup_range raw.length)
  have h2 : ∀ j ∈ (clean_df raw).map (fun r => r.idx), hasIdx (clean_df raw) j = true := by
    intro j hj
    obtain ⟨r, hr, hri⟩ := List.mem_map.mp hj
    unfold hasIdx
    exact List.any_eq_true.mpr ⟨r, hr, by simp [hri]⟩
  have h3 : ∀ r ∈ clean_df raw,
      r.idx ∈ (clean_df raw).map (fun r => r.idx) → r.origIndex = .vnat r.idx := by
    intro r hr _
    unfold clean_df at hr
    obtain ⟨p, hp, heq⟩ := List.mem_map.mp hr
    rw [← heq]
    rfl
  have h := foldl_apply_updates_invariants ((clean_df raw).map (fun r => r.idx))
    Es (clean_df raw) h1 h2 h3
  exact ⟨h.1, h.2.2⟩

/-- Witness for C9 on a one-row ingested table reconciled once: the labels
stay pairwise distinct and the surviving ingested row keeps its recorded
position 0. -/
theorem original_position_invariant_witness :
    (([[(0, Option.some ['v'])]].foldl apply_updates
        (clean_df [⟨.vnull, .vnull, .vnull, .vnull, .vnull⟩])).map (fun r => r.idx)).Nodup
    ∧ (⟨0, .vnull, .vnull, .vnull, .vstr ['v'], .vnull, .vnat 0⟩ : DRow).origIndex
        = .vnat (⟨0, .vnull, .vnull, .vnull, .vstr ['v'], .vnull, .vnat 0⟩ : DRow).idx :=
  ⟨(original_position_invariant [⟨.vnull, .vnull, .vnull, .vnull, .vnull⟩]
      [[(0, Option.some ['v'])]]).1,
   (original_position_invariant [⟨.vnull, .vnull, .vnull, .vnull, .vnull⟩]
      [[(0, Option.some ['v'])]]).2
      ⟨0, .vnull, .vnull, .vnull, .vstr ['v'], .vnull, .vnat 0⟩ (by decide) (by decide)⟩

/-! ### C8: the text normalizer -/

/-- Characters of the modeled repertoire for which the claim's
"accented variant" reading is meaningful: ASCII plus the precomposed
accented Latin letters of the tables. -/
def accentedChars : List Char :=
  ['À', 'Â', 'Ä', 'Ç', 'É', 'È', 'Ê', 'Ë', 'Î', 'Ï', 'Ô', 'Ö', 'Ù', 'Û', 'Ü',
   'à', 'â', 'ä', 'ç', 'é', 'è', 'ê', 'ë', 'î', 'ï', 'ô', 'ö', 'ù', 'û', 'ü']

def goodChar (c : Char) : Bool :=
  c.toNat ≤ 127 || accentedChars.contains c

/-- The unaccented lowercase form of one character: lowercase it, then keep
the base letter of its decomposition. -/
def stripAccent (c : Char) : Char :=
  match decompChar (lowerChar c) with
  | b :: _ => b
  | [] => lowerChar c

theorem lowerPairs_stable : ∀ p ∈ lowerPairs, lowerChar p.2 = p.2 := by decide

theorem decompPairs_stable : ∀ q ∈ decompPairs, ∀ d ∈ q.2,
    combining d = true ∨ (decompChar d = [d] ∧ lowerChar d = d) := by decide

theorem lowerChar_idem (c : Char) : lowerChar (lowerChar c) = lowerChar c := by
  cases hf : lowerPairs.find? (fun p => p.1 == c) with
  | none =>
    have h1 : lowerChar c = c := by
      unfold lowerChar
      rw [hf]
    rw [h1]
    exact h1
  | some p =>
    have hp : p ∈ lowerPairs := List.mem_of_find?_eq_some hf
    have h1 : lowerChar c = p.2 := by
      unfold lowerChar
      rw [hf]
    rw [h1]
    exact lowerPairs_stable p hp

/-- Every non-combining character of a lowered-and-decomposed text is
stable: decomposing it again or lowering it again does nothing. -/
theorem stable_decomp (c d : Char) (hd : d ∈ decompChar (lowerChar c))
    (hcomb : combining d = false) : decompChar d = [d] ∧ lowerChar d = d := by
  cases hf : decompPairs.find? (fun p => p.1 == lowerChar c) with
  | none =>
    have h1 : decompChar (lowerChar c) = [lowerChar c] := by
      unfold decompChar
      rw [hf]
    rw [h1, List.mem_singleton] at hd
    subst hd
    constructor
    · unfold decompChar
      rw [hf]
    · exact lowerChar_idem c
  | some q =>
    have hq : q ∈ decompPairs := List.mem_of_find?_eq_some hf
    have h1 : decompChar (lowerChar c) = q.2 := by
      unfold decompChar
      rw [hf]
    rw [h1] at hd
    rcases decompPairs_stable q hq d hd with hcb | hok
    · rw [hcomb] at hcb
      exact Bool.noConfusion hcb
    · exact hok

theorem mem_pyStrip (s : List Char) (c : Char) (h : c ∈ pyStrip s) : c ∈ s := by
  unfold pyStrip at h
  rw [List.mem_reverse] at h
  have h2 := (List.dropWhile_suffix isSpace).sublist.subset h
  rw [List.mem_reverse] at h2
  exact (List.dropWhile_suffix isSpace).sublist.subset h2

theorem normalize_expand (s : List Char) :
    normalize_text (.vstr s)
      = (((pyStrip s).map lowerChar).flatMap decompChar).filter (fun c => !combining c) := rfl

/-- Every character of a normalized text is stable. -/
theorem normalize_chars_stable (s : List Char) :
    ∀ d ∈ normalize_text (.vstr s),
      decompChar d = [d] ∧ lowerChar d = d ∧ combining d = false := by
  intro d hd
  rw [normalize_expand, List.mem_filter] at hd
  have hcomb : combining d = false := by
    have h2 := hd.2
    rw [Bool.not_eq_eq_eq_not] at h2
    simpa using h2
  obtain ⟨a, ha, hda⟩ := List.mem_flatMap.mp hd.1
  obtain ⟨b, hb, hba⟩ := List.mem_map.mp ha
  rw [← hba] at hda
  exact ⟨(stable_decomp b d hda hcomb).1, (stable_decomp b d hda hcomb).2, hcomb⟩

theorem flatMap_eq_self (l : List Char) (h : ∀ d ∈ l, decompChar d = [d]) :
    l.flatMap decompChar = l := by
  induction l with
  | nil => rfl
  | cons c l ih =>
    rw [List.flatMap_cons, h c (by simp), ih (fun d hd => h d (by simp [hd]))]
    rfl

/-- On a text whose characters are all stable, the normalizer reduces to a
plain strip. -/
theorem normalize_of_stable (t : List Char)
    (h : ∀ d ∈ t, decompChar d = [d] ∧ lowerChar d = d ∧ combining d = false) :
    normalize_text (.vstr t) = pyStrip t := by
  rw [normalize_expand]
  have hsub : ∀ d ∈ pyStrip t, decompChar d = [d] ∧ lowerChar d = d ∧ combining d = false :=
    fun d hd => h d (mem_pyStrip t d hd)
  have hmap : (pyStrip t).map lowerChar = pyStrip t := by
    have h1 : (pyStrip t).map lowerChar = (pyStrip t).map (fun d => d) :=
      List.map_congr_left (fun d hd => (hsub d hd).2.1)
    rw [h1, List.map_id']
  rw [hmap]
  rw [flatMap_eq_self (pyStrip t) (fun d hd => (hsub d hd).1)]
  exact List.filter_eq_self.mpr (fun d hd => by rw [(hsub d hd).2.2]; rfl)

theorem lowerChar_small (c : Char) (h : c.toNat ≤ 127) : (lowerChar c).toNat ≤ 127 := by
  cases hf : lowerPairs.find? (fun p => p.1 == c) with
  | none =>
    unfold lowerChar
    rw [hf]
    exact h
  | some p =>
    have hp : p ∈ lowerPairs := List.mem_of_find?_eq_some hf
    have hpc : p.1 = c := by
      have := List.find?_some hf
      rwa [beq_iff_eq] at this
    unfold lowerChar
    rw [hf]
    have hkey : ∀ q ∈ lowerPairs, q.1.toNat ≤ 127 → q.2.toNat ≤ 127 := by decide
    exact hkey p hp (by rw [hpc]; exact h)

theorem decompChar_small (c : Char) (h : c.toNat ≤ 127) : decompChar c = [c] := by
  have hf : decompPairs.find? (fun p => p.1 == c) = Option.none := by
    rw [List.find?_eq_none]
    intro q hq hbeq
    rw [beq_iff_eq] at hbeq
    have hkey : ∀ q ∈ decompPairs, 127 < q.1.toNat := by decide
    have h1 := hkey q hq
    rw [hbeq] at h1
    omega
  unfold decompChar
  rw [hf]

theorem combining_small (c : Char) (h : c.toNat ≤ 127) : combining c = false := by
  unfold combining
  rw [Bool.eq_false_iff]
  intro hcon
  simp only [Bool.and_eq_true, decide_eq_true_eq] at hcon
  omega

/-- Per-character content of the accented-variant law: for a good
character, lowering then decomposing then dropping combining marks yields
exactly its unaccented lowercase form. -/
theorem goodChar_decomp (c : Char) (h : goodChar c = true) :
    (decompChar (lowerChar c)).filter (fun x => !combining x) = [stripAccent c] := by
  unfold goodChar at h
  rw [Bool.or_eq_true] at h
  rcases h with h | h
  · rw [decide_eq_true_eq] at h
    have h2 : (lowerChar c).toNat ≤ 127 := lowerChar_small c h
    have hdec := decompChar_small (lowerChar c) h2
    have hstr : stripAccent c = lowerChar c := by
      unfold stripAccent
      rw [hdec]
    rw [hdec, hstr]
    simp [combining_small (lowerChar c) h2]
  · rw [List.elem_iff] at h
    fin_cases h <;> decide

theorem normalize_good_chars (l : List Char) (h : ∀ c ∈ l, goodChar c = true) :
    ((l.map lowerChar).flatMap decompChar).filter (fun x => !combining x)
      = l.map stripAccent := by
  induction l with
  | nil => rfl
  | cons c l ih =>
    rw [List.map_cons, List.flatMap_cons, List.filter_append]
    rw [goodChar_decomp c (h c (by simp))]
    rw [ih (fun d hd => h d (by simp [hd]))]
    rfl

/-- Claim C8 (amended): composing the normalizer with itself strips the
whitespace that removing combining marks can expose, so in general
`normalize (normalize s) = strip (normalize s)`; the normalizer is
idempotent exactly on inputs whose normal form is already stripped — in
particular on any text free of bare combining marks — and on the modeled
Latin repertoire an accented string normalizes to the unaccented lowercase
form of its stripped self. -/
theorem normalize_idempotent_amended (s : List Char) :
    normalize_text (.vstr (normalize_text (.vstr s))) = pyStrip (normalize_text (.vstr s))
    ∧ (pyStrip (normalize_text (.vstr s)) = normalize_text (.vstr s) →
        normalize_text (.vstr (normalize_text (.vstr s))) = normalize_text (.vstr s))
    ∧ ((∀ c ∈ s, goodChar c = true) →
        normalize_text (.vstr s) = (pyStrip s).map stripAccent) := by
  have h1 : normalize_text (.vstr (normalize_text (.vstr s)))
      = pyStrip (normalize_text (.vstr s)) :=
    normalize_of_stable _ (normalize_chars_stable s)
  refine ⟨h1, ?_, ?_⟩
  · intro htrim
    rw [h1, htrim]
  · intro hgood
    rw [normalize_expand]
    exact normalize_good_chars (pyStrip s)
      (fun c hc => hgood c (mem_pyStrip s c hc))

/-- Claim C8's idempotence fails on the code: for the text made of a bare
combining acute accent, a space and the letter a, the first normalization
deletes the mark and exposes a leading space, which only the second
normalization trims. -/
theorem normalize_not_idempotent_counterexample :
    normalize_text (.vstr (normalize_text (.vstr ['́', ' ', 'a'])))
      ≠ normalize_text (.vstr ['́', ' ', 'a']) := by
  decide

/-- Witness for the amended C8: a French phrase with accented capitals is
normalized idempotently, and its normal form is its unaccented lowercase. -/
theorem normalize_idempotent_amended_witness :
    normalize_text (.vstr (normalize_text (.vstr ("  Épreuve Été ".toList))))
        = normalize_text (.vstr ("  Épreuve Été ".toList))
    ∧ normalize_text (.vstr ("  Épreuve Été ".toList))
        = (pyStrip ("  Épreuve Été ".toList)).map stripAccent :=
  ⟨(normalize_idempotent_amended ("  Épreuve Été ".toList)).2.1 (by decide),
   (normalize_idempotent_amended ("  Épreuve Été ".toList)).2.2 (by decide)⟩

/-! ### C2: numeric rendering lemmas -/

theorem digitChar_props : ∀ k < 10,
    isDigit (digitChar k) = true ∧ isSpace (digitChar k) = false
      ∧ isAsciiAlpha (digitChar k) = false ∧ (digitChar k).toNat - 48 = k
      ∧ digitChar k ≠ ':' ∧ digitChar k ≠ 'A' ∧ digitChar k ≠ 'P'
      ∧ digitChar k ≠ 'M' := by
  decide

theorem natToStrAux_zero (f : Nat) : natToStrAux f 0 = [] := by
  cases f <;> rfl

theorem natToStrAux_succ (f n : Nat) (h : n ≠ 0) :
    natToStrAux (f + 1) n = natToStrAux f (n / 10) ++ [digitChar (n % 10)] := by
  conv_lhs => rw [natToStrAux]
  rw [if_neg h]

theorem natToStr_small : ∀ n < 10, natToStr n = [digitChar n] := by
  decide

theorem natToStr_two : ∀ n < 100, 10 ≤ n →
    natToStr n = [digitChar (n / 10), digitChar (n % 10)] := by
  decide

theorem pad2_eq : ∀ n < 100, pad2 n = [digitChar (n / 10), digitChar (n % 10)] := by
  decide

theorem natToStr_four (y : Nat) (h1 : 1000 ≤ y) (h2 : y ≤ 9999) :
    natToStr y = [digitChar (y / 1000), digitChar (y / 100 % 10),
      digitChar (y / 10 % 10), digitChar (y % 10)] := by
  unfold natToStr
  rw [if_neg (by omega)]
  obtain ⟨f, rfl⟩ : ∃ f, y = f + 4 := ⟨y - 4, by omega⟩
  rw [natToStrAux_succ (f + 3) (f + 4) (by omega)]
  rw [natToStrAux_succ (f + 2) ((f + 4) / 10) (by omega)]
  rw [natToStrAux_succ (f + 1) ((f + 4) / 10 / 10) (by omega)]
  rw [natToStrAux_succ f ((f + 4) / 10 / 10 / 10) (by omega)]
  rw [show (f + 4) / 10 / 10 / 10 / 10 = 0 from by omega]
  rw [natToStrAux_zero]
  have e1 : (f + 4) / 10 / 10 / 10 % 10 = (f + 4) / 1000 := by omega
  have e2 : (f + 4) / 10 / 10 % 10 = (f + 4) / 100 % 10 := by omega
  rw [e1, e2]
  simp

theorem digitChar_val : ∀ k < 10, (digitChar k).toNat - 48 = k := by
  decide

theorem valOfDigits_two (a b : Nat) (ha : a < 10) (hb : b < 10) :
    valOfDigits [digitChar a, digitChar b] = 10 * a + b := by
  unfold valOfDigits
  simp only [List.foldl_cons, List.foldl_nil]
  rw [digitChar_val a ha, digitChar_val b hb]
  omega

theorem valOfDigits_one (a : Nat) (ha : a < 10) :
    valOfDigits [digitChar a] = a := by
  unfold valOfDigits
  simp only [List.foldl_cons, List.foldl_nil]
  rw [digitChar_val a ha]
  omega

theorem valOfDigits_four (a b c d : Nat)
    (ha : a < 10) (hb : b < 10) (hc : c < 10) (hd : d < 10) :
    valOfDigits [digitChar a, digitChar b, digitChar c, digitChar d]
      = ((a * 10 + b) * 10 + c) * 10 + d := by
  unfold valOfDigits
  simp only [List.foldl_cons, List.foldl_nil]
  rw [digitChar_val a ha, digitChar_val b hb, digitChar_val c hc, digitChar_val d hd]
  omega

theorem alpha_not_space (c : Char) (h : isAsciiAlpha c = true) : isSpace c = false := by
  unfold isAsciiAlpha at h
  unfold isSpace
  rw [Bool.eq_false_iff]
  intro hcon
  simp only [Bool.or_eq_true, Bool.and_eq_true, decide_eq_true_eq] at h hcon
  omega

theorem daysInMonth_le_31 (y m : Nat) : daysInMonth y m ≤ 31 := by
  unfold daysInMonth
  split_ifs <;> omega

theorem parse_core_format_aux (c1 c2 c3 a1 : Char) (y mo d hr mi : Nat)
    (ha : isAsciiAlpha c1 = true) (hb : isAsciiAlpha c2 = true) (hc : isAsciiAlpha c3 = true)
    (hmn : monthNum c1 c2 c3 = Option.some mo)
    (haP : a1 = 'A' ∨ a1 = 'P')
    (hy1 : 1000 ≤ y) (hy2 : y ≤ 9999)
    (hmo1 : 1 ≤ mo) (hmo2 : mo ≤ 12)
    (hd1 : 1 ≤ d) (hd31 : d ≤ 31) (hdm : d ≤ daysInMonth y mo)
    (hhr1 : 1 ≤ hr) (hhr2 : hr ≤ 12) (hmi : mi ≤ 59)
    (hok : hourConv a1 hr ≤ 23) :
    parse_core (c1 :: c2 :: c3 :: ' ' :: (pad2 d ++ ' ' ::
        (natToStr y ++ ' ' :: ' ' :: (natToStr hr ++ ':' :: (pad2 mi ++ [a1, 'M'])))))
      = .okRes ⟨y, mo, d⟩ ⟨hourConv a1 hr, mi⟩ := by
  have pd := pad2_eq d (by omega)
  have pm := pad2_eq mi (by omega)
  have py := natToStr_four y hy1 hy2
  have d1 := digitChar_props (d / 10) (by omega)
  have d2 := digitChar_props (d % 10) (by omega)
  have y1 := digitChar_props (y / 1000) (by omega)
  have y2 := digitChar_props (y / 100 % 10) (by omega)
  have y3 := digitChar_props (y / 10 % 10) (by omega)
  have y4 := digitChar_props (y % 10) (by omega)
  have m1 := digitChar_props (mi / 10) (by omega)
  have m2 := digitChar_props (mi % 10) (by omega)
  rw [pd, pm, py]
  by_cases hsm : hr < 10
  · have ph := natToStr_small hr hsm
    have h1 := digitChar_props hr (by omega)
    rw [ph]
    simp only [parse_core, List.cons_append, List.nil_append,
      List.takeWhile_cons, List.dropWhile_cons,
      ha, hb, hc, Bool.and_self, Bool.true_and, if_true,
      d1.1, d1.2.1, d2.1, d2.2.1, y1.1, y1.2.1, y2.1, y2.2.1, y3.1, y3.2.1, y4.1, y4.2.1,
      m1.1, m1.2.1, m2.1, m2.2.1, h1.1, h1.2.1,
      (by decide : isSpace ' ' = true), (by decide : isDigit ' ' = false),
      (by decide : isSpace ':' = false), (by decide : isDigit ':' = false),
      if_true, if_false, Bool.false_eq_true, List.length_cons, List.length_nil]
    rcases haP with rfl | rfl <;>
    · norm_num [finishParse, hmn]
      rw [valOfDigits_two (d / 10) (d % 10) (by omega) (by omega),
          valOfDigits_four (y / 1000) (y / 100 % 10) (y / 10 % 10) (y % 10)
            (by omega) (by omega) (by omega) (by omega),
          valOfDigits_one hr (by omega),
          valOfDigits_two (mi / 10) (mi % 10) (by omega) (by omega)]
      rw [show 10 * (d / 10) + d % 10 = d from by omega]
      rw [show ((y / 1000 * 10 + y / 100 % 10) * 10 + y / 10 % 10) * 10 + y % 10 = y
        from by omega]
      rw [show 10 * (mi / 10) + mi % 10 = mi from by omega]
      unfold mkDate mkTime
      rw [if_pos ⟨by omega, by omega, by omega, by omega, by omega, hdm⟩]
      rw [if_pos ⟨hok, hmi⟩]
  · have ph := natToStr_two hr (by omega) (by omega)
    have h1 := digitChar_props (hr / 10) (by omega)
    have h2 := digitChar_props (hr % 10) (by omega)
    rw [ph]
    simp only [parse_core, List.cons_append, List.nil_append,
      List.takeWhile_cons, List.dropWhile_cons,
      ha, hb, hc, Bool.and_self, Bool.true_and, if_true,
      d1.1, d1.2.1, d2.1, d2.2.1, y1.1, y1.2.1, y2.1, y2.2.1, y3.1, y3.2.1, y4.1, y4.2.1,
      m1.1, m1.2.1, m2.1, m2.2.1, h1.1, h1.2.1, h2.1, h2.2.1,
      (by decide : isSpace ' ' = true), (by decide : isDigit ' ' = false),
      (by decide : isSpace ':' = false), (by decide : isDigit ':' = false),
      if_true, if_false, Bool.false_eq_true, List.length_cons, List.length_nil]
    rcases haP with rfl | rfl <;>
    · norm_num [finishParse, hmn]
      rw [valOfDigits_two (d / 10) (d % 10) (by omega) (by omega),
          valOfDigits_four (y / 1000) (y / 100 % 10) (y / 10 % 10) (y % 10)
            (by omega) (by omega) (by omega) (by omega),
          valOfDigits_two (hr / 10) (hr % 10) (by omega) (by omega),
          valOfDigits_two (mi / 10) (mi % 10) (by omega) (by omega)]
      rw [show 10 * (d / 10) + d % 10 = d from by omega]
      rw [show ((y / 1000 * 10 + y / 100 % 10) * 10 + y / 10 % 10) * 10 + y % 10 = y
        from by omega]
      rw [show 10 * (hr / 10) + hr % 10 = hr from by omega]
      rw [show 10 * (mi / 10) + mi % 10 = mi from by omega]
      unfold mkDate mkTime
      rw [if_pos ⟨by omega, by omega, by omega, by omega, by omega, hdm⟩]
      rw [if_pos ⟨hok, hmi⟩]

theorem pyStrip_eq_of_ends (s : List Char) (c e : Char)
    (h1 : s.head? = some c) (hcs : isSpace c = false)
    (h2 : s.getLast? = some e) (hes : isSpace e = false) :
    pyStrip s = s := by
  apply pyStrip_eq_self
  · apply dropWhile_eq_self_of_head
    intro x hx
    rw [h1, Option.some_inj] at hx
    rw [hx] at hcs
    exact hcs
  · apply dropWhile_eq_self_of_head
    intro x hx
    rw [List.head?_reverse, h2, Option.some_inj] at hx
    rw [hx] at hes
    exact hes

theorem parse_genius_format_aux (c1 c2 c3 a1 : Char) (y mo d hr mi : Nat)
    (ha : isAsciiAlpha c1 = true) (hb : isAsciiAlpha c2 = true) (hc : isAsciiAlpha c3 = true)
    (hmn : monthNum c1 c2 c3 = Option.some mo)
    (haP : a1 = 'A' ∨ a1 = 'P')
    (hy1 : 1000 ≤ y) (hy2 : y ≤ 9999)
    (hmo1 : 1 ≤ mo) (hmo2 : mo ≤ 12)
    (hd1 : 1 ≤ d) (hd31 : d ≤ 31) (hdm : d ≤ daysInMonth y mo)
    (hhr1 : 1 ≤ hr) (hhr2 : hr ≤ 12) (hmi : mi ≤ 59)
    (hok : hourConv a1 hr ≤ 23) :
    parse_genius_datetime (.vstr (c1 :: c2 :: c3 :: ' ' :: (pad2 d ++ ' ' ::
        (natToStr y ++ ' ' :: ' ' :: (natToStr hr ++ ':' :: (pad2 mi ++ [a1, 'M']))))))
      = .okRes ⟨y, mo, d⟩ ⟨hourConv a1 hr, mi⟩ := by
  set L := c1 :: c2 :: c3 :: ' ' :: (pad2 d ++ ' ' ::
      (natToStr y ++ ' ' :: ' ' :: (natToStr hr ++ ':' :: (pad2 mi ++ [a1, 'M'])))) with hL
  have hhead : L.head? = some c1 := by
    rw [hL]
    rfl
  have hlast : L.getLast? = some 'M' := by
    rw [hL]
    rw [show c1 :: c2 :: c3 :: ' ' :: (pad2 d ++ ' ' ::
        (natToStr y ++ ' ' :: ' ' :: (natToStr hr ++ ':' :: (pad2 mi ++ [a1, 'M']))))
      = (c1 :: c2 :: c3 :: ' ' :: (pad2 d ++ ' ' ::
          (natToStr y ++ ' ' :: ' ' :: (natToStr hr ++ ':' :: (pad2 mi ++ [a1]))))) ++ ['M']
      from by simp]
    exact List.getLast?_concat _
  show parse_core (pyStrip L) = _
  rw [pyStrip_eq_of_ends L c1 'M' hhead (alpha_not_space c1 ha) hlast (by decide)]
  rw [hL]
  exact parse_core_format_aux c1 c2 c3 a1 y mo d hr mi ha hb hc hmn haP hy1 hy2
    hmo1 hmo2 hd1 hd31 hdm hhr1 hhr2 hmi hok

/-- Claim C2 (amended): for every date whose year lies in [1000, 9999] --
so that the unpadded year renders as exactly four digits -- with month and
day in their valid calendar ranges, and every time with hour in [0,23] and
minute in [0,59], decoding the encoded text returns exactly the original
pair. -/
theorem roundtrip_amended (y mo d h mi : Nat)
    (hy1 : 1000 ≤ y) (hy2 : y ≤ 9999)
    (hmo1 : 1 ≤ mo) (hmo2 : mo ≤ 12)
    (hd1 : 1 ≤ d) (hdm : d ≤ daysInMonth y mo)
    (hh : h ≤ 23) (hmi : mi ≤ 59) :
    parse_genius_datetime (.vstr (format_datetime ⟨y, mo, d⟩ ⟨h, mi⟩))
      = .okRes ⟨y, mo, d⟩ ⟨h, mi⟩ := by
  have hd31 : d ≤ 31 := le_trans hdm (daysInMonth_le_31 y mo)
  have hfmt : format_datetime ⟨y, mo, d⟩ ⟨h, mi⟩
      = monthAbbr mo ++ ' ' :: (pad2 d ++ ' ' :: (natToStr y ++ ' ' :: ' ' ::
          (natToStr (if h % 12 = 0 then 12 else h % 12) ++ ':' ::
            (pad2 mi ++ (if h < 12 then ['A', 'M'] else ['P', 'M']))))) := rfl
  obtain ⟨a1, hamp, haP, hconv⟩ :
      ∃ a1, (if h < 12 then ['A', 'M'] else ['P', 'M']) = [a1, 'M']
        ∧ (a1 = 'A' ∨ a1 = 'P')
        ∧ hourConv a1 (if h % 12 = 0 then 12 else h % 12) = h := by
    by_cases hlt : h < 12
    · refine ⟨'A', by simp [hlt], Or.inl rfl, ?_⟩
      unfold hourConv
      by_cases hz : h % 12 = 0
      · simp [hz]
        omega
      · simp [hz]
        split_ifs <;> omega
    · refine ⟨'P', by simp [hlt], Or.inr rfl, ?_⟩
      unfold hourConv
      by_cases hz : h % 12 = 0
      · simp [hz]
        omega
      · simp [hz]
        split_ifs <;> omega
  rw [hfmt, hamp]
  have hr1 : 1 ≤ (if h % 12 = 0 then 12 else h % 12) := by
    split_ifs <;> omega
  have hr2 : (if h % 12 = 0 then 12 else h % 12) ≤ 12 := by
    split_ifs <;> omega
  have hok : hourConv a1 (if h % 12 = 0 then 12 else h % 12) ≤ 23 := by
    rw [hconv]
    exact hh
  rw [show (⟨h, mi⟩ : PyTime)
      = ⟨hourConv a1 (if h % 12 = 0 then 12 else h % 12), mi⟩ from by rw [hconv]]
  interval_cases mo <;>
  · simp only [monthAbbr, List.cons_append, List.nil_append]
    refine parse_genius_format_aux _ _ _ a1 y _ d _ mi ?_ ?_ ?_ ?_ haP hy1 hy2 ?_ ?_
      hd1 hd31 hdm hr1 hr2 hmi hok <;> decide

/-- Witness for the amended C2 at 2024-01-05 15:30, the spec's own
example pair. -/
theorem roundtrip_amended_witness :
    parse_genius_datetime (.vstr (format_datetime ⟨2024, 1, 5⟩ ⟨15, 30⟩))
      = .okRes ⟨2024, 1, 5⟩ ⟨15, 30⟩ :=
  roundtrip_amended 2024 1 5 15 30 (by decide) (by decide) (by decide) (by decide)
    (by decide) (by decide) (by decide) (by decide)

end Qualifab
